import Mathlib

/-!
Verification of the Game of Life repository (game.c, game_omp.c, MPI/game_mpi.c).

Grids are modelled as total functions from integer coordinates to integer cell
values (the C code stores int cells).  Cells that a C program never writes are
represented by explicit "garbage" parameters, so that behaviour depending on
uninitialized memory is visible in the model.  All array-mutating loops are
modelled either as pointwise functional updates (when every cell of the target
region is written exactly once from a distinct source array) or as explicit
left folds of single-cell writes (for the MPI update_board, whose frame
properties are among the claims).
-/

/-- A two-dimensional integer grid: row index, column index, cell value. -/
abbrev Grid : Type := Int → Int → Int

/-- The rule block duplicated verbatim in game.c:226-239, game_omp.c:308-321
and MPI/game_mpi.c:370-383: a live cell (value 1) survives with 2 or 3 live
neighbors, a dead cell becomes alive with exactly 3 live neighbors, everything
else is dead. ALIVE = 1 and DEAD = 0. -/
def life_rule (cur nbrs : Int) : Int :=
  if cur = 1 then
    if nbrs = 2 ∨ nbrs = 3 then 1 else 0
  else
    if nbrs = 3 then 1 else 0

/-- The list of integers lo, lo+1, ..., hi (empty when hi < lo); used to model
C for-loops over an inclusive integer range. -/
def intRange (lo hi : Int) : List Int :=
  (List.range (hi + 1 - lo).toNat).map (fun k : Nat => lo + (k : Int))

theorem mem_intRange {lo hi x : Int} : x ∈ intRange lo hi ↔ lo ≤ x ∧ x ≤ hi := by
  unfold intRange
  rw [List.mem_map]
  constructor
  · rintro ⟨k, hk, rfl⟩
    rw [List.mem_range] at hk
    omega
  · rintro ⟨h1, h2⟩
    refine ⟨(x - lo).toNat, ?_, by omega⟩
    rw [List.mem_range]
    omega

/-- A single assignment m[a][b] = v, modelled as a pointwise functional update. -/
def writeCell (g : Grid) (a b v : Int) : Grid :=
  fun i j => if i = a ∧ j = b then v else g i j

namespace Serial

/-- read_neighbor of game.c:187-200 (identical in game_omp.c:259-272): toroidal
wraparound, an index of -1 is read at s-1 and an index of s is read at 0, in
both dimensions independently. -/
def read_neighbor (m : Grid) (s i j : Int) : Int :=
  let i2 := if i < 0 then s - 1 else if i = s then 0 else i
  let j2 := if j < 0 then s - 1 else if j = s then 0 else j
  m i2 j2

/-- The 8-neighbor sum computed in game.c:214-222. -/
def alive_neighbors (m : Grid) (s i j : Int) : Int :=
  read_neighbor m s (i-1) (j-1) + read_neighbor m s (i-1) j +
  read_neighbor m s (i-1) (j+1) + read_neighbor m s i (j-1) +
  read_neighbor m s i (j+1) + read_neighbor m s (i+1) (j-1) +
  read_neighbor m s (i+1) j + read_neighbor m s (i+1) (j+1)

/-- process_generation of game.c:203-241: every cell (i,j) with 0 <= i,j < s of
the destination is written with the rule applied to the source; cells outside
that square are whatever the destination matrix held (dst models the freshly
malloc'ed, uninitialized next_gen matrix of game.c:104). -/
def process_generation (src dst : Grid) (s : Int) : Grid :=
  fun i j =>
    if 0 ≤ i ∧ i < s ∧ 0 ≤ j ∧ j < s then
      life_rule (src i j) (alive_neighbors src s i j)
    else dst i j

/-- The generation loop of game.c main (lines 101-120): each iteration
allocates a fresh uninitialized matrix (garb k) and fills it from the current
one. -/
def serial_run (init : Grid) (garb : Nat → Grid) (s : Int) : Nat → Grid
  | 0 => init
  | Nat.succ k => process_generation (serial_run init garb s k) (garb k) s

/-- cells_alive of game.c:262-274: the number of cells equal to ALIVE in the
s-by-s matrix, accumulated row-major exactly like the C double loop. -/
def cells_alive (m : Grid) (s : Int) : Int :=
  (intRange 0 (s-1)).foldl
    (fun acc i =>
      (intRange 0 (s-1)).foldl
        (fun acc2 j => if m i j = 1 then acc2 + 1 else acc2) acc)
    0

/-- Exit status of game.c main (lines 44-62 and 139): EXIT_FAILURE (1) when
fewer than two arguments are given or when atoi of size or generations is 0;
otherwise the program runs to completion and returns EXIT_SUCCESS (0). -/
def main_exit (argc : Nat) (size generations : Int) : Int :=
  if argc < 3 then 1
  else if size = 0 ∨ generations = 0 then 1
  else 0

end Serial

namespace MPI

/-- nbrs of MPI/game_mpi.c:360-368: the 8-neighbor sum by direct indexing into
the local board (halo rows/columns included). -/
def nbrs_sum (b : Grid) (i j : Int) : Int :=
  b (i-1) (j-1) + b (i-1) j + b (i-1) (j+1) + b i (j-1) +
  b i (j+1) + b (i+1) (j-1) + b (i+1) j + b (i+1) (j+1)

/-- The update loop of update_board, MPI/game_mpi.c:355-386: for i = 1 to
rows-2 and j = 1 to cols-2, read the 8-neighbor sum from the source board
(first state component) and assign the rule result to new_board (second state
component).  The state threads both arrays through every single-cell write so
that the frame properties (source never written, destination never read) are
provable rather than built in. -/
def update_board (st : Grid × Grid) (rows cols : Int) : Grid × Grid :=
  (intRange 1 (rows - 2)).foldl
    (fun st1 i =>
      (intRange 1 (cols - 2)).foldl
        (fun st2 j =>
          (st2.1, writeCell st2.2 i j (life_rule (st2.1 i j) (nbrs_sum st2.1 i j))))
        st1)
    st

theorem foldl_ext {α β : Type} (f g : β → α → β) (h : ∀ s a, f s a = g s a) :
    ∀ (l : List α) (s : β), l.foldl f s = l.foldl g s := by
  intro l
  induction l with
  | nil => intro s; rfl
  | cons a t ih =>
      intro s
      rw [List.foldl_cons, List.foldl_cons, h, ih]

theorem foldl_pair_eq {α : Type} (g : Grid → Grid → α → Grid) :
    ∀ (l : List α) (b d : Grid),
      List.foldl (fun st a => (st.1, g st.1 st.2 a)) (b, d) l
        = (b, List.foldl (fun dd a => g b dd a) d l) := by
  intro l
  induction l with
  | nil => intro b d; rfl
  | cons a t ih =>
      intro b d
      rw [List.foldl_cons, List.foldl_cons]
      exact ih b (g b d a)

theorem foldl_update_pair (cl : List Int) :
    ∀ (rl : List Int) (b d : Grid),
      List.foldl
        (fun (st1 : Grid × Grid) (i : Int) =>
          List.foldl
            (fun (st2 : Grid × Grid) (j : Int) =>
              (st2.1, writeCell st2.2 i j (life_rule (st2.1 i j) (nbrs_sum st2.1 i j))))
            st1 cl)
        (b, d) rl
      = (b, List.foldl
              (fun dd i =>
                List.foldl
                  (fun dd2 j => writeCell dd2 i j (life_rule (b i j) (nbrs_sum b i j)))
                  dd cl)
              d rl) := by
  intro rl
  induction rl with
  | nil => intro b d; rfl
  | cons i t ih =>
      intro b d
      rw [List.foldl_cons, List.foldl_cons]
      have hin :
          List.foldl
            (fun (st2 : Grid × Grid) (j : Int) =>
              (st2.1, writeCell st2.2 i j (life_rule (st2.1 i j) (nbrs_sum st2.1 i j))))
            (b, d) cl
          = (b, List.foldl
                  (fun dd2 j => writeCell dd2 i j (life_rule (b i j) (nbrs_sum b i j)))
                  d cl) :=
        foldl_pair_eq
          (fun bb dd j => writeCell dd i j (life_rule (bb i j) (nbrs_sum bb i j))) cl b d
      rw [hin]
      exact ih b _

theorem update_board_eq (b d : Grid) (rows cols : Int) :
    update_board (b, d) rows cols
      = (b, (intRange 1 (rows - 2)).foldl
              (fun dd i =>
                (intRange 1 (cols - 2)).foldl
                  (fun dd2 j => writeCell dd2 i j (life_rule (b i j) (nbrs_sum b i j)))
                  dd)
              d) := by
  unfold update_board
  exact foldl_update_pair (intRange 1 (cols - 2)) (intRange 1 (rows - 2)) b d

theorem foldl_writeCell_row (b : Grid) (i : Int) :
    ∀ (l : List Int) (d : Grid) (x y : Int),
      (l.foldl (fun dd2 j => writeCell dd2 i j (life_rule (b i j) (nbrs_sum b i j))) d) x y
        = if x = i ∧ y ∈ l then life_rule (b i y) (nbrs_sum b i y) else d x y := by
  intro l
  induction l with
  | nil => intro d x y; simp
  | cons j t ih =>
      intro d x y
      rw [List.foldl_cons, ih]
      by_cases hx : x = i
      · subst hx
        by_cases hyt : y ∈ t
        · simp [hyt]
        · by_cases hyj : y = j
          · subst hyj
            simp [hyt, writeCell]
          · simp [hyt, hyj, writeCell]
      · simp [hx, writeCell]

theorem foldl_writeCell_grid (b : Grid) (cl : List Int) :
    ∀ (rl : List Int) (d : Grid) (x y : Int),
      (rl.foldl
        (fun dd i =>
          cl.foldl (fun dd2 j => writeCell dd2 i j (life_rule (b i j) (nbrs_sum b i j))) dd)
        d) x y
        = if x ∈ rl ∧ y ∈ cl then life_rule (b x y) (nbrs_sum b x y) else d x y := by
  intro rl
  induction rl with
  | nil => intro d x y; simp
  | cons i t ih =>
      intro d x y
      rw [List.foldl_cons, ih, foldl_writeCell_row]
      by_cases hycl : y ∈ cl
      · by_cases hxt : x ∈ t
        · simp [hxt, hycl, List.mem_cons]
        · by_cases hxi : x = i
          · subst hxi
            simp [hxt, hycl, List.mem_cons]
          · simp [hxt, hxi, hycl, List.mem_cons]
      · simp [hycl, List.mem_cons]

/-- Pointwise description of the destination buffer after update_board: interior
cells (1 <= i <= rows-2, 1 <= j <= cols-2) hold the rule applied to the source
board's 8-neighbor sum, all other cells keep their previous contents. -/
theorem update_board_apply (b d : Grid) (rows cols x y : Int) :
    (update_board (b, d) rows cols).2 x y
      = if (1 ≤ x ∧ x ≤ rows - 2) ∧ (1 ≤ y ∧ y ≤ cols - 2) then
          life_rule (b x y) (nbrs_sum b x y)
        else d x y := by
  rw [update_board_eq]
  dsimp only
  rw [foldl_writeCell_grid]
  by_cases h1 : (1 ≤ x ∧ x ≤ rows - 2) ∧ (1 ≤ y ∧ y ≤ cols - 2)
  · rw [if_pos ⟨mem_intRange.2 h1.1, mem_intRange.2 h1.2⟩, if_pos h1]
  · rw [if_neg, if_neg h1]
    intro hc
    exact h1 ⟨mem_intRange.1 hc.1, mem_intRange.1 hc.2⟩

/-- The source board is never written by update_board. -/
theorem update_board_fst (b d : Grid) (rows cols : Int) :
    (update_board (b, d) rows cols).1 = b := by
  rw [update_board_eq]

/-- rows_per_process of MPI/game_mpi.c:442-445: ceiling of size / nprocs,
computed as (size + (nprocs-1)) / nprocs with C integer division (both
operands are nonnegative in every run considered, so Nat division is exact).
The C global nprocs is passed explicitly as P. -/
def rows_per_process (P S : Nat) : Nat :=
  (S + (P - 1)) / P

/-- local_rows of MPI/game_mpi.c:448-454: every worker gets rows_per_process
rows except the last one, which gets the (possibly negative) remainder
size - (nprocs-1)*rows_per_process; hence the Int result type. -/
def local_rows (P S w : Nat) : Int :=
  if w = P - 1 then (S : Int) - ((P : Int) - 1) * (rows_per_process P S : Int)
  else (rows_per_process P S : Int)

/-- local_start_row of MPI/game_mpi.c:457-460: first global row (1-based)
owned by worker w. -/
def local_start_row (P S w : Nat) : Int :=
  (w : Int) * (rows_per_process P S : Int) + 1

/-- local_end_row of MPI/game_mpi.c:463-469: exclusive upper bound of the
global row range owned by worker w. -/
def local_end_row (P S w : Nat) : Int :=
  if w = P - 1 then (S : Int) + 1
  else local_start_row P S w + (rows_per_process P S : Int)

/-- process_owning_row of MPI/game_mpi.c:472-475: (row-1) / rows_per_process
with C integer division; rows handled by the program are in 1..size, so the
Nat version is faithful. -/
def process_owning_row (P S row : Nat) : Nat :=
  (row - 1) / rows_per_process P S

theorem rows_per_process_pos {P S : Nat} (hP : 1 ≤ P) (hS : 1 ≤ S) :
    1 ≤ rows_per_process P S := by
  unfold rows_per_process
  rw [Nat.le_div_iff_mul_le (by omega)]
  omega

theorem le_P_mul_rpp {P S : Nat} (hP : 1 ≤ P) :
    S ≤ P * rows_per_process P S := by
  have hdm := Nat.div_add_mod (S + (P - 1)) P
  have hm : (S + (P - 1)) % P < P := Nat.mod_lt _ (by omega)
  unfold rows_per_process
  generalize hq : (S + (P - 1)) / P = q at hdm
  generalize hr : (S + (P - 1)) % P = r at hdm hm
  have hqq : P * q = S + (P - 1) - r := by omega
  have : S + (P - 1) - r ≥ S := by omega
  omega

theorem start_add_rows {P S : Nat} (w : Nat) (hw : w < P) :
    local_start_row P S w + local_rows P S w = local_start_row P S (w + 1) ∨
      (w = P - 1 ∧ local_start_row P S w + local_rows P S w = (S : Int) + 1) := by
  by_cases hl : w = P - 1
  · right
    refine ⟨hl, ?_⟩
    unfold local_start_row local_rows
    rw [if_pos hl]
    subst hl
    have : ((P - 1 : Nat) : Int) = (P : Int) - 1 := by omega
    rw [this]
    ring
  · left
    unfold local_start_row local_rows
    rw [if_neg hl]
    push_cast
    ring

theorem local_rows_nonneg {P S : Nat} (hP : 1 ≤ P) (hS : 1 ≤ S)
    (hlast : 0 ≤ local_rows P S (P - 1)) (w : Nat) (hw : w < P) :
    0 ≤ local_rows P S w := by
  by_cases hl : w = P - 1
  · subst hl; exact hlast
  · unfold local_rows
    rw [if_neg hl]
    positivity

theorem local_rows_mid {P S : Nat} (w : Nat) (hl : ¬ w = P - 1) :
    local_rows P S w = (rows_per_process P S : Int) := by
  unfold local_rows
  rw [if_neg hl]

theorem local_rows_mid_pos {P S : Nat} (hP : 1 ≤ P) (hS : 1 ≤ S) (w : Nat)
    (hl : ¬ w = P - 1) : 1 ≤ local_rows P S w := by
  rw [local_rows_mid w hl]
  exact_mod_cast rows_per_process_pos hP hS

/-- The largest global row of worker w's range is at most S (needs the
amending hypothesis that the last worker's row count is nonnegative). -/
theorem start_rows_le {P S : Nat} (hP : 1 ≤ P) (hS : 1 ≤ S)
    (hlast : 0 ≤ local_rows P S (P - 1)) (w : Nat) (hw : w < P) :
    local_start_row P S w - 1 + local_rows P S w ≤ (S : Int) := by
  by_cases hl : w = P - 1
  · subst hl
    unfold local_start_row local_rows
    rw [if_pos rfl]
    have : ((P - 1 : Nat) : Int) = (P : Int) - 1 := by omega
    rw [this]
    ring_nf
    omega
  · rw [local_rows_mid w hl]
    unfold local_start_row
    have hw1 : w + 1 ≤ P - 1 := by omega
    have hmul : ((w : Int) + 1) * (rows_per_process P S : Int)
        ≤ ((P : Int) - 1) * (rows_per_process P S : Int) := by
      apply mul_le_mul_of_nonneg_right _ (by positivity)
      omega
    have hlast' : ((P : Int) - 1) * (rows_per_process P S : Int) ≤ (S : Int) := by
      unfold local_rows at hlast
      rw [if_pos rfl] at hlast
      linarith [hlast]
    have hexp : ((w : Int) + 1) * (rows_per_process P S : Int)
        = (w : Int) * (rows_per_process P S : Int) + (rows_per_process P S : Int) := by
      ring
    linarith [hmul, hlast', hexp]

theorem local_start_row_pos {P S : Nat} (w : Nat) : 1 ≤ local_start_row P S w := by
  unfold local_start_row
  have : (0 : Int) ≤ (w : Int) * (rows_per_process P S : Int) := by positivity
  omega


theorem owner_spec {P S : Nat} (hP : 1 ≤ P) (hS : 1 ≤ S)
    (hlast : 0 ≤ local_rows P S (P - 1)) (row : Nat) (h1 : 1 ≤ row) (h2 : row ≤ S) :
    process_owning_row P S row < P
    ∧ local_start_row P S (process_owning_row P S row) ≤ (row : Int)
    ∧ (row : Int) < local_end_row P S (process_owning_row P S row)
    ∧ (row : Int) - local_start_row P S (process_owning_row P S row) + 1
        ≤ local_rows P S (process_owning_row P S row) := by
  have hR : 1 ≤ rows_per_process P S := rows_per_process_pos hP hS
  have hle : (row - 1) / rows_per_process P S * rows_per_process P S ≤ row - 1 :=
    Nat.div_mul_le_self _ _
  have hlt : row - 1 < (row - 1) / rows_per_process P S * rows_per_process P S
      + rows_per_process P S :=
    Nat.lt_div_mul_add (by omega)
  have hoP : process_owning_row P S row < P := by
    unfold process_owning_row
    rw [Nat.div_lt_iff_lt_mul (by omega)]
    calc row - 1 < S := by omega
      _ ≤ P * rows_per_process P S := le_P_mul_rpp hP
  have hoeq : process_owning_row P S row = (row - 1) / rows_per_process P S := rfl
  have hcast : ((row - 1 : Nat) : Int) = (row : Int) - 1 := by omega
  have hleI : ((process_owning_row P S row : Int)) * (rows_per_process P S : Int)
      ≤ (row : Int) - 1 := by
    rw [hoeq]
    have h : (((row - 1) / rows_per_process P S : Nat) : Int) * (rows_per_process P S : Int)
        ≤ ((row - 1 : Nat) : Int) := by exact_mod_cast hle
    linarith [hcast]
  have hltI : (row : Int) - 1
      < ((process_owning_row P S row : Int) + 1) * (rows_per_process P S : Int) := by
    rw [hoeq]
    have h : ((row - 1 : Nat) : Int)
        < (((row - 1) / rows_per_process P S : Nat) : Int) * (rows_per_process P S : Int)
          + (rows_per_process P S : Int) := by exact_mod_cast hlt
    have hexp : ((((row - 1) / rows_per_process P S : Nat) : Int) + 1)
        * (rows_per_process P S : Int)
        = (((row - 1) / rows_per_process P S : Nat) : Int)
          * (rows_per_process P S : Int) + (rows_per_process P S : Int) := by ring
    linarith [hcast]
  refine ⟨hoP, ?_, ?_, ?_⟩
  · unfold local_start_row
    linarith [hleI]
  · by_cases ho : process_owning_row P S row = P - 1
    · unfold local_end_row
      rw [if_pos ho]
      omega
    · unfold local_end_row local_start_row
      rw [if_neg ho]
      have hexp : ((process_owning_row P S row : Int) + 1) * (rows_per_process P S : Int)
          = (process_owning_row P S row : Int) * (rows_per_process P S : Int)
            + (rows_per_process P S : Int) := by ring
      linarith [hltI, hexp]
  · by_cases ho : process_owning_row P S row = P - 1
    · unfold local_start_row local_rows
      rw [if_pos ho, ho]
      have hcast : ((P - 1 : Nat) : Int) = (P : Int) - 1 := by omega
      rw [hcast]
      have h2' : (row : Int) ≤ (S : Int) := by exact_mod_cast h2
      linarith
    · unfold local_start_row
      rw [local_rows_mid _ ho]
      have hexp : ((process_owning_row P S row : Int) + 1) * (rows_per_process P S : Int)
          = (process_owning_row P S row : Int) * (rows_per_process P S : Int)
            + (rows_per_process P S : Int) := by ring
      linarith [hltI, hexp]

theorem range_ordered {P S : Nat} (w w' : Nat) (hww' : w < w') (hw' : w' < P) :
    local_end_row P S w ≤ local_start_row P S w' := by
  have hwP : ¬ w = P - 1 := by omega
  unfold local_end_row local_start_row
  rw [if_neg hwP]
  have hmul : ((w : Int) + 1) * (rows_per_process P S : Int)
      ≤ (w' : Int) * (rows_per_process P S : Int) := by
    apply mul_le_mul_of_nonneg_right _ (by positivity)
    omega
  have hexp : ((w : Int) + 1) * (rows_per_process P S : Int)
      = (w : Int) * (rows_per_process P S : Int) + (rows_per_process P S : Int) := by
    ring
  linarith

theorem end_row_le {P S : Nat} (hP : 1 ≤ P)
    (hlast : 0 ≤ local_rows P S (P - 1)) (w : Nat) (hw : w < P) :
    local_end_row P S w ≤ (S : Int) + 1 := by
  by_cases hl : w = P - 1
  · unfold local_end_row
    rw [if_pos hl]
  · unfold local_end_row local_start_row
    rw [if_neg hl]
    have hw1 : w + 1 ≤ P - 1 := by omega
    have hmul : ((w : Int) + 1) * (rows_per_process P S : Int)
        ≤ ((P : Int) - 1) * (rows_per_process P S : Int) := by
      apply mul_le_mul_of_nonneg_right _ (by positivity)
      omega
    have hlast' : ((P : Int) - 1) * (rows_per_process P S : Int) ≤ (S : Int) := by
      unfold local_rows at hlast
      rw [if_pos rfl] at hlast
      linarith
    have hexp : ((w : Int) + 1) * (rows_per_process P S : Int)
        = (w : Int) * (rows_per_process P S : Int) + (rows_per_process P S : Int) := by
      ring
    linarith

/-- C3: counterexample. At S = 5, P = 4 the claimed partition property fails:
rows_per_process = 2, so worker 2's range is [5,7), which contains global row
6 even though the grid only has rows 1..5 (and worker 3's local row count is
S - 3*2 = -1 < 0).  Hence the conjunction of pairwise disjointness, union
exactly [1,S+1), and nonnegative local row counts is false. -/
theorem C3_counterexample :
    ¬ ((∀ r r' : Nat, r < 4 → r' < 4 → r ≠ r' → ∀ i : Int,
          ¬(local_start_row 4 5 r ≤ i ∧ i < local_end_row 4 5 r
            ∧ local_start_row 4 5 r' ≤ i ∧ i < local_end_row 4 5 r'))
      ∧ (∀ i : Int,
          (∃ r : Nat, r < 4 ∧ local_start_row 4 5 r ≤ i ∧ i < local_end_row 4 5 r)
            ↔ (1 ≤ i ∧ i < (5 : Int) + 1))
      ∧ (∀ r : Nat, r < 4 → 0 ≤ local_rows 4 5 r)) := by
  intro h
  have h6 := (h.2.1 6).1 ⟨2, by norm_num, by decide, by decide⟩
  omega

/-- C3 (amended): for S > 0 and 1 <= P <= S, PROVIDED the last worker's local
row count S - (P-1)*rows_per_process is nonnegative (which the original claim
lacks and which fails e.g. at S = 5, P = 4), the half-open global row ranges
[local_start_row r, local_end_row r) for r < P are pairwise disjoint, their
union is exactly [1, S+1), and every worker's local row count is
nonnegative. -/
theorem C3_partition_coverage_amended (P S : Nat) (hP : 1 ≤ P) (hPS : P ≤ S)
    (hlast : 0 ≤ local_rows P S (P - 1)) :
    (∀ r r' : Nat, r < P → r' < P → r ≠ r' → ∀ i : Int,
        ¬(local_start_row P S r ≤ i ∧ i < local_end_row P S r
          ∧ local_start_row P S r' ≤ i ∧ i < local_end_row P S r'))
    ∧ (∀ i : Int,
        (∃ r : Nat, r < P ∧ local_start_row P S r ≤ i ∧ i < local_end_row P S r)
          ↔ (1 ≤ i ∧ i < (S : Int) + 1))
    ∧ (∀ r : Nat, r < P → 0 ≤ local_rows P S r) := by
  have hS : 1 ≤ S := le_trans hP hPS
  refine ⟨?_, ?_, local_rows_nonneg hP hS hlast⟩
  · intro r r' hr hr' hne i hmem
    rcases Nat.lt_or_ge r r' with hlt | hge
    · have := range_ordered (P := P) (S := S) r r' hlt hr'
      omega
    · have hlt' : r' < r := by omega
      have := range_ordered (P := P) (S := S) r' r hlt' hr
      omega
  · intro i
    constructor
    · rintro ⟨r, hr, hs, he⟩
      have h1 := local_start_row_pos (P := P) (S := S) r
      have h2 := end_row_le hP hlast r hr
      omega
    · rintro ⟨h1, h2⟩
      have h1' : 1 ≤ i.toNat := by omega
      have h2' : i.toNat ≤ S := by omega
      obtain ⟨ho, hs, he, _⟩ := owner_spec hP hS hlast i.toNat h1' h2'
      have hi : ((i.toNat : Nat) : Int) = i := by omega
      rw [hi] at hs he
      exact ⟨process_owning_row P S i.toNat, ho, hs, he⟩

/-- Witness for C3_partition_coverage_amended at P = 2, S = 5. -/
theorem C3_partition_coverage_amended_witness :
    ((1 : Nat) ≤ 2 ∧ (2 : Nat) ≤ 5 ∧ (0 : Int) ≤ local_rows 2 5 (2 - 1))
    ∧ ((∀ r r' : Nat, r < 2 → r' < 2 → r ≠ r' → ∀ i : Int,
          ¬(local_start_row 2 5 r ≤ i ∧ i < local_end_row 2 5 r
            ∧ local_start_row 2 5 r' ≤ i ∧ i < local_end_row 2 5 r'))
        ∧ (∀ i : Int,
            (∃ r : Nat, r < 2 ∧ local_start_row 2 5 r ≤ i ∧ i < local_end_row 2 5 r)
              ↔ (1 ≤ i ∧ i < (5 : Int) + 1))
        ∧ (∀ r : Nat, r < 2 → 0 ≤ local_rows 2 5 r)) :=
  ⟨⟨by norm_num, by norm_num, by decide⟩,
   C3_partition_coverage_amended 2 5 (by norm_num) (by norm_num) (by decide)⟩

/-- clear_border of MPI/game_mpi.c:196-209: rows 0 and rows-1 and columns 0
and cols-1 of the rows x cols array are set to zero; cells outside the array
are untouched (out-of-range reads still see the underlying contents). -/
def clear_border (b : Grid) (rows cols : Int) : Grid :=
  fun i j =>
    if (0 ≤ i ∧ i < rows ∧ (j = 0 ∨ j = cols - 1))
        ∨ (0 ≤ j ∧ j < cols ∧ (i = 0 ∨ i = rows - 1)) then 0
    else b i j

/-- random_board of MPI/game_mpi.c:264-294 for worker w: the board is
allocated with local_rows+2 rows and size+2 columns (its fresh malloc contents
are garb); the fill loop writes local cell (i-start+1, j) with the global
random cell (i, j) for 1 <= i,j <= size whenever start <= i < end; finally
clear_border zeroes the border ring.  The global random sequence is the same
on every worker (same seed), so it is modelled as a global grid init. -/
def random_board (P S : Nat) (init garb : Grid) (w : Nat) : Grid :=
  clear_border
    (fun li j =>
      if 1 ≤ j ∧ j ≤ (S : Int)
          ∧ 1 ≤ local_start_row P S w - 1 + li ∧ local_start_row P S w - 1 + li ≤ (S : Int)
          ∧ local_start_row P S w ≤ local_start_row P S w - 1 + li
          ∧ local_start_row P S w - 1 + li < local_end_row P S w then
        init (local_start_row P S w - 1 + li) j
      else garb li j)
    (local_rows P S w + 2) ((S : Int) + 2)

/-- The new_board buffer of MPI/game_mpi.c main (lines 123-130): built by
build_array (fresh malloc contents garb) and then cleared by clear_border. -/
def new_board_init (P S : Nat) (garb : Grid) (w : Nat) : Grid :=
  clear_border garb (local_rows P S w + 2) ((S : Int) + 2)

/-- The halo exchange of update_board, MPI/game_mpi.c:305-353, for all P
workers at once: worker w receives row local_rows(w-1) of worker w-1 into its
row 0 (columns 1..size) unless w = 0, and receives row 1 of worker w+1 into
its row local_rows(w)+1 (columns 1..size) unless w = P-1.  All sends read the
pre-exchange boards, matching the non-blocking MPI semantics in which every
send is posted before any wait. -/
def halo_exchange (P S : Nat) (B : Nat → Grid) (w : Nat) : Grid :=
  fun i j =>
    if ¬ w = 0 ∧ i = 0 ∧ 1 ≤ j ∧ j ≤ (S : Int) then
      B (w - 1) (local_rows P S (w - 1)) j
    else if ¬ w = P - 1 ∧ i = local_rows P S w + 1 ∧ 1 ≤ j ∧ j ≤ (S : Int) then
      B (w + 1) 1 j
    else B w i j

/-- Distributed state: every worker's current board and its back buffer. -/
def DState : Type := (Nat → Grid) × (Nat → Grid)

/-- One generation of the MPI main loop (lines 136-144): every worker runs
update_board (halo exchange on the current board, then the interior update
written into the back buffer) and then the two buffers are swapped. -/
def dist_step (P S : Nat) (st : DState) : DState :=
  (fun w =>
    (update_board (halo_exchange P S st.1 w, st.2 w)
      (local_rows P S w + 2) ((S : Int) + 2)).2,
   fun w => halo_exchange P S st.1 w)

/-- G generations of the distributed run. -/
def dist_run (P S : Nat) (st : DState) (G : Nat) : DState :=
  (dist_step P S)^[G] st

/-- The initial distributed state: every worker's board from random_board and
its back buffer from build_array + clear_border.  garbB and garbN give the
malloc garbage of the two buffers of each worker. -/
def init_state (P S : Nat) (init : Grid) (garbB garbN : Nat → Grid) : DState :=
  (fun w => random_board P S init (garbB w) w,
   fun w => new_board_init P S (garbN w) w)

/-- The row assembly performed by print_board, MPI/game_mpi.c:389-439: global
row i (1-based) is taken from worker process_owning_row(i), at local row
i - local_start_row + 1. -/
def gather_board (P S : Nat) (B : Nat → Grid) (row : Nat) (j : Int) : Int :=
  B (process_owning_row P S row)
    ((row : Int) - local_start_row P S (process_owning_row P S row) + 1) j

/-- The global S x S grid extended by the zero padding that the distributed
variant maintains around the whole domain (cleared borders, zero halos at the
top of worker 0 and the bottom of worker P-1). -/
def gpad (S : Nat) (g : Grid) : Grid :=
  fun i j =>
    if 1 ≤ i ∧ i ≤ (S : Int) ∧ 1 ≤ j ∧ j ≤ (S : Int) then g i j else 0

/-- The reference semantics of one distributed generation on the assembled
global grid: the rule applied to the zero-padded 8-neighbor sum. -/
def global_step (S : Nat) (g : Grid) : Grid :=
  fun i j => life_rule (gpad S g i j) (nbrs_sum (gpad S g) i j)

/-- G generations of the reference global semantics. -/
def global_run (S : Nat) (g : Grid) (G : Nat) : Grid :=
  (global_step S)^[G] g

/-- Interior correspondence: worker w's local row i holds global row
local_start_row + i - 1 of the abstract grid g. -/
def InvI (P S : Nat) (A : Nat → Grid) (g : Grid) : Prop :=
  ∀ w : Nat, w < P → ∀ i j : Int, 1 ≤ i → i ≤ local_rows P S w →
    1 ≤ j → j ≤ (S : Int) →
    A w i j = g (local_start_row P S w - 1 + i) j

/-- Border invariant of one buffer family: the two border columns are zero in
every allocated row, worker 0's top halo row is zero, and worker P-1's bottom
halo row is zero. -/
def InvB (P S : Nat) (A : Nat → Grid) : Prop :=
  (∀ w : Nat, w < P → ∀ i j : Int, 0 ≤ i → i ≤ local_rows P S w + 1 →
      (j = 0 ∨ j = (S : Int) + 1) → A w i j = 0)
  ∧ (∀ j : Int, 0 ≤ j → j ≤ (S : Int) + 1 → A 0 0 j = 0)
  ∧ (∀ j : Int, 0 ≤ j → j ≤ (S : Int) + 1 → A (P - 1) (local_rows P S (P - 1) + 1) j = 0)

/-- Full invariant of a distributed state relative to an abstract global grid. -/
def StateInv (P S : Nat) (st : DState) (g : Grid) : Prop :=
  InvI P S st.1 g ∧ InvB P S st.1 ∧ InvB P S st.2

end MPI

namespace MPI

/-- After the halo exchange, every cell of worker w's board (including the
halo/border ring) agrees with the zero-padded global grid at the corresponding
global coordinate. -/
theorem halo_exchange_spec {P S : Nat} (hP : 1 ≤ P) (hS : 1 ≤ S)
    (hlast : 0 ≤ local_rows P S (P - 1)) {A : Nat → Grid} {g : Grid}
    (hI : InvI P S A g) (hB : InvB P S A) :
    ∀ w : Nat, w < P → ∀ i j : Int, 0 ≤ i → i ≤ local_rows P S w + 1 →
      0 ≤ j → j ≤ (S : Int) + 1 →
      halo_exchange P S A w i j = gpad S g (local_start_row P S w - 1 + i) j := by
  obtain ⟨hBcol, hBtop, hBbot⟩ := hB
  intro w hw i j hi0 hi1 hj0 hj1
  have hR : 1 ≤ rows_per_process P S := rows_per_process_pos hP hS
  have hRI : (1 : Int) ≤ (rows_per_process P S : Int) := by exact_mod_cast hR
  have hlrw : 0 ≤ local_rows P S w := local_rows_nonneg hP hS hlast w hw
  have hstart : 1 ≤ local_start_row P S w := local_start_row_pos w
  have hmax : local_start_row P S w - 1 + local_rows P S w ≤ (S : Int) :=
    start_rows_le hP hS hlast w hw
  unfold halo_exchange
  split_ifs with h1 h2
  · obtain ⟨hw0, hieq, hj1', hj2'⟩ := h1
    have hwm1 : ¬ (w - 1 = P - 1) := by omega
    have hlr : local_rows P S (w - 1) = (rows_per_process P S : Int) :=
      local_rows_mid _ hwm1
    rw [hI (w - 1) (by omega) (local_rows P S (w - 1)) j
          (by rw [hlr]; exact hRI) le_rfl hj1' hj2']
    have hrel : local_start_row P S (w - 1) - 1 + local_rows P S (w - 1)
        = local_start_row P S w - 1 + i := by
      rw [hlr, hieq]
      unfold local_start_row
      have hc : ((w - 1 : Nat) : Int) = (w : Int) - 1 := by omega
      rw [hc]
      ring
    rw [hrel]
    have hge : 1 ≤ local_start_row P S w - 1 + i := by
      rw [hieq]
      unfold local_start_row
      have hw1 : (1 : Int) ≤ (w : Int) := by omega
      nlinarith
    have hle : local_start_row P S w - 1 + i ≤ (S : Int) := by
      rw [hieq]; linarith
    unfold gpad
    rw [if_pos ⟨hge, hle, hj1', hj2'⟩]
  · obtain ⟨hwl, hieq, hj1', hj2'⟩ := h2
    have hw1P : w + 1 < P := by omega
    have hlrw' : local_rows P S w = (rows_per_process P S : Int) :=
      local_rows_mid _ hwl
    have hidx : local_start_row P S w - 1 + i = local_start_row P S (w + 1) - 1 + 1 := by
      rw [hieq, hlrw']
      unfold local_start_row
      push_cast
      ring
    by_cases hc : 1 ≤ local_rows P S (w + 1)
    · rw [hI (w + 1) hw1P 1 j le_rfl hc hj1' hj2', hidx]
      have hmax' : local_start_row P S (w + 1) - 1 + local_rows P S (w + 1) ≤ (S : Int) :=
        start_rows_le hP hS hlast (w + 1) hw1P
      have hstart' : 1 ≤ local_start_row P S (w + 1) := local_start_row_pos (w + 1)
      unfold gpad
      rw [if_pos ⟨by linarith, by linarith, hj1', hj2'⟩]
    · have hz : local_rows P S (w + 1) = 0 := by
        have := local_rows_nonneg hP hS hlast (w + 1) hw1P
        omega
      have hwP1 : w + 1 = P - 1 := by
        by_contra hne
        have := local_rows_mid_pos hP hS (w + 1) hne
        omega
      have hrow1 : (1 : Int) = local_rows P S (w + 1) + 1 := by
        rw [hz]
        norm_num
      have hBval : A (w + 1) 1 j = 0 := by
        rw [hrow1, hwP1]
        exact hBbot j (by omega) (by omega)
      rw [hBval]
      have hSP1 : local_start_row P S (w + 1) = (S : Int) + 1 := by
        rw [hwP1] at hz ⊢
        unfold local_rows at hz
        rw [if_pos rfl] at hz
        unfold local_start_row
        have hcc : ((P - 1 : Nat) : Int) = (P : Int) - 1 := by omega
        rw [hcc]
        linarith
      rw [hidx, hSP1]
      unfold gpad
      rw [if_neg]
      omega
  · by_cases hj : 1 ≤ j ∧ j ≤ (S : Int)
    · by_cases hi_zero : i = 0
      · have hw0 : w = 0 := by
          by_contra hne
          exact h1 ⟨hne, hi_zero, hj.1, hj.2⟩
        rw [hw0, hi_zero]
        rw [hBtop j (by omega) (by omega)]
        have hs0 : local_start_row P S 0 = 1 := by
          unfold local_start_row
          push_cast
          ring
        unfold gpad
        rw [if_neg]
        rw [hs0]
        omega
      · by_cases hi_top : i = local_rows P S w + 1
        · have hwl : w = P - 1 := by
            by_contra hne
            exact h2 ⟨hne, hi_top, hj.1, hj.2⟩
          have hBval : A w i j = 0 := by
            rw [hwl, hi_top, hwl]
            exact hBbot j (by omega) (by omega)
          rw [hBval]
          have hSP1 : local_start_row P S w - 1 + i = (S : Int) + 1 := by
            rw [hi_top, hwl]
            unfold local_start_row local_rows
            rw [if_pos rfl]
            have hcc : ((P - 1 : Nat) : Int) = (P : Int) - 1 := by omega
            rw [hcc]
            ring
          rw [hSP1]
          unfold gpad
          rw [if_neg]
          omega
        · have hint1 : 1 ≤ i := by omega
          have hint2 : i ≤ local_rows P S w := by omega
          rw [hI w hw i j hint1 hint2 hj.1 hj.2]
          unfold gpad
          rw [if_pos ⟨by omega, by linarith, hj.1, hj.2⟩]
    · have hj' : j = 0 ∨ j = (S : Int) + 1 := by omega
      rw [hBcol w hw i j hi0 hi1 hj']
      unfold gpad
      rw [if_neg]
      omega

end MPI

namespace MPI

theorem dist_step_inv {P S : Nat} (hP : 1 ≤ P) (hS : 1 ≤ S)
    (hlast : 0 ≤ local_rows P S (P - 1)) {st : DState} {g : Grid}
    (h : StateInv P S st g) :
    StateInv P S (dist_step P S st) (global_step S g) := by
  obtain ⟨hI, hB1, hB2⟩ := h
  have hex := halo_exchange_spec hP hS hlast hI hB1
  obtain ⟨hB1col, hB1top, hB1bot⟩ := hB1
  obtain ⟨hB2col, hB2top, hB2bot⟩ := hB2
  refine ⟨?_, ⟨?_, ?_, ?_⟩, ⟨?_, ?_, ?_⟩⟩
  · -- interior of the updated front buffer
    intro w hw i j hi1 hi2 hj1 hj2
    have hlrw : 0 ≤ local_rows P S w := local_rows_nonneg hP hS hlast w hw
    show (update_board (halo_exchange P S st.1 w, st.2 w)
        (local_rows P S w + 2) ((S : Int) + 2)).2 i j = _
    rw [update_board_apply]
    rw [if_pos ⟨⟨hi1, by omega⟩, ⟨hj1, by omega⟩⟩]
    unfold global_step
    unfold nbrs_sum
    rw [hex w hw i j (by omega) (by omega) (by omega) (by omega)]
    rw [hex w hw (i-1) (j-1) (by omega) (by omega) (by omega) (by omega)]
    rw [hex w hw (i-1) j (by omega) (by omega) (by omega) (by omega)]
    rw [hex w hw (i-1) (j+1) (by omega) (by omega) (by omega) (by omega)]
    rw [hex w hw i (j-1) (by omega) (by omega) (by omega) (by omega)]
    rw [hex w hw i (j+1) (by omega) (by omega) (by omega) (by omega)]
    rw [hex w hw (i+1) (j-1) (by omega) (by omega) (by omega) (by omega)]
    rw [hex w hw (i+1) j (by omega) (by omega) (by omega) (by omega)]
    rw [hex w hw (i+1) (j+1) (by omega) (by omega) (by omega) (by omega)]
    have e1 : local_start_row P S w - 1 + (i - 1) = local_start_row P S w - 1 + i - 1 := by
      ring
    have e2 : local_start_row P S w - 1 + (i + 1) = local_start_row P S w - 1 + i + 1 := by
      ring
    rw [e1, e2]
  · -- cleared columns of the updated front buffer
    intro w hw i j hi0 hi1 hj
    show (update_board (halo_exchange P S st.1 w, st.2 w)
        (local_rows P S w + 2) ((S : Int) + 2)).2 i j = 0
    rw [update_board_apply]
    rw [if_neg (by omega)]
    exact hB2col w hw i j hi0 hi1 hj
  · -- zero top halo of worker 0's updated front buffer
    intro j hj0 hj1
    show (update_board (halo_exchange P S st.1 0, st.2 0)
        (local_rows P S 0 + 2) ((S : Int) + 2)).2 0 j = 0
    rw [update_board_apply]
    rw [if_neg (by omega)]
    exact hB2top j hj0 hj1
  · -- zero bottom halo of worker P-1's updated front buffer
    intro j hj0 hj1
    show (update_board (halo_exchange P S st.1 (P - 1), st.2 (P - 1))
        (local_rows P S (P - 1) + 2) ((S : Int) + 2)).2
        (local_rows P S (P - 1) + 1) j = 0
    rw [update_board_apply]
    rw [if_neg (by omega)]
    exact hB2bot j hj0 hj1
  · -- cleared columns of the new back buffer (the exchanged old front buffer)
    intro w hw i j hi0 hi1 hj
    show halo_exchange P S st.1 w i j = 0
    unfold halo_exchange
    rw [if_neg (by omega), if_neg (by omega)]
    exact hB1col w hw i j hi0 hi1 hj
  · -- zero top halo of worker 0's new back buffer
    intro j hj0 hj1
    have hlr0 : 0 ≤ local_rows P S 0 := local_rows_nonneg hP hS hlast 0 (by omega)
    show halo_exchange P S st.1 0 0 j = 0
    unfold halo_exchange
    rw [if_neg (by omega), if_neg (by omega)]
    exact hB1top j hj0 hj1
  · -- zero bottom halo of worker P-1's new back buffer
    intro j hj0 hj1
    show halo_exchange P S st.1 (P - 1) (local_rows P S (P - 1) + 1) j = 0
    unfold halo_exchange
    rw [if_neg (by omega), if_neg (by omega)]
    exact hB1bot j hj0 hj1

theorem dist_run_inv {P S : Nat} (hP : 1 ≤ P) (hS : 1 ≤ S)
    (hlast : 0 ≤ local_rows P S (P - 1)) {st : DState} {g : Grid}
    (h : StateInv P S st g) (G : Nat) :
    StateInv P S (dist_run P S st G) (global_run S g G) := by
  induction G with
  | zero => exact h
  | succ n ih =>
      unfold dist_run global_run at ih ⊢
      rw [Function.iterate_succ_apply', Function.iterate_succ_apply']
      exact dist_step_inv hP hS hlast ih

end MPI

namespace MPI

theorem init_state_inv {P S : Nat} (hP : 1 ≤ P) (hS : 1 ≤ S)
    (hlast : 0 ≤ local_rows P S (P - 1)) (init : Grid) (garbB garbN : Nat → Grid) :
    StateInv P S (init_state P S init garbB garbN) init := by
  refine ⟨?_, ⟨?_, ?_, ?_⟩, ⟨?_, ?_, ?_⟩⟩
  · -- interior of random_board
    intro w hw i j hi1 hi2 hj1 hj2
    have hlrw : 0 ≤ local_rows P S w := local_rows_nonneg hP hS hlast w hw
    have hstart : 1 ≤ local_start_row P S w := local_start_row_pos w
    have hmax : local_start_row P S w - 1 + local_rows P S w ≤ (S : Int) :=
      start_rows_le hP hS hlast w hw
    have hend : local_start_row P S w - 1 + i < local_end_row P S w := by
      by_cases hl : w = P - 1
      · unfold local_end_row
        rw [if_pos hl]
        omega
      · unfold local_end_row
        rw [if_neg hl]
        have := local_rows_mid (P := P) (S := S) w hl
        omega
    show random_board P S init (garbB w) w i j = _
    unfold random_board clear_border
    rw [if_neg (by omega)]
    dsimp only
    rw [if_pos ⟨hj1, hj2, by omega, by omega, by omega, hend⟩]
  · -- cleared columns of random_board
    intro w hw i j hi0 hi1 hj
    show random_board P S init (garbB w) w i j = 0
    unfold random_board clear_border
    rw [if_pos (by omega)]
  · -- top halo of worker 0's random_board
    intro j hj0 hj1
    have hlr0 : 0 ≤ local_rows P S 0 := local_rows_nonneg hP hS hlast 0 (by omega)
    show random_board P S init (garbB 0) 0 0 j = 0
    unfold random_board clear_border
    rw [if_pos (by omega)]
  · -- bottom halo of worker P-1's random_board
    intro j hj0 hj1
    show random_board P S init (garbB (P - 1)) (P - 1) (local_rows P S (P - 1) + 1) j = 0
    unfold random_board clear_border
    rw [if_pos (by omega)]
  · -- cleared columns of the back buffer
    intro w hw i j hi0 hi1 hj
    show new_board_init P S (garbN w) w i j = 0
    unfold new_board_init clear_border
    rw [if_pos (by omega)]
  · -- top halo of worker 0's back buffer
    intro j hj0 hj1
    have hlr0 : 0 ≤ local_rows P S 0 := local_rows_nonneg hP hS hlast 0 (by omega)
    show new_board_init P S (garbN 0) 0 0 j = 0
    unfold new_board_init clear_border
    rw [if_pos (by omega)]
  · -- bottom halo of worker P-1's back buffer
    intro j hj0 hj1
    show new_board_init P S (garbN (P - 1)) (P - 1) (local_rows P S (P - 1) + 1) j = 0
    unfold new_board_init clear_border
    rw [if_pos (by omega)]

theorem gather_spec {P S : Nat} (hP : 1 ≤ P) (hS : 1 ≤ S)
    (hlast : 0 ≤ local_rows P S (P - 1)) {A : Nat → Grid} {g : Grid}
    (hI : InvI P S A g) (row : Nat) (j : Int)
    (h1 : 1 ≤ row) (h2 : row ≤ S) (hj1 : 1 ≤ j) (hj2 : j ≤ (S : Int)) :
    gather_board P S A row j = g row j := by
  obtain ⟨ho, hs, he, hd⟩ := owner_spec hP hS hlast row h1 h2
  unfold gather_board
  rw [hI (process_owning_row P S row) ho
        ((row : Int) - local_start_row P S (process_owning_row P S row) + 1) j
        (by omega) hd hj1 hj2]
  congr 1
  ring

/-- For any valid partition, gathering the distributed run reproduces the
reference zero-padded global semantics, independently of P and of all
uninitialized memory contents. -/
theorem dist_run_gather {P S : Nat} (hP : 1 ≤ P) (hS : 1 ≤ S)
    (hlast : 0 ≤ local_rows P S (P - 1)) (init : Grid) (garbB garbN : Nat → Grid)
    (G : Nat) (row : Nat) (j : Int)
    (h1 : 1 ≤ row) (h2 : row ≤ S) (hj1 : 1 ≤ j) (hj2 : j ≤ (S : Int)) :
    gather_board P S (dist_run P S (init_state P S init garbB garbN) G).1 row j
      = global_run S init G row j := by
  have hinv := dist_run_inv hP hS hlast (init_state_inv hP hS hlast init garbB garbN) G
  exact gather_spec hP hS hlast hinv.1 row j h1 h2 hj1 hj2

end MPI

namespace MPI

/-- C2: counterexample. At S = 5 the P = 4 partition is broken (worker 3's
local row count is -1), and the program reads memory it never initialized:
worker 2's second interior row is never filled by random_board (it would be
global row 6 of a 5-row grid) and worker 3 sends the out-of-bounds row 1 of
its 1-row array.  Resolving those unwritten cells as all-ones (any value is a
legal run of the C program), one generation from the all-dead 5x5 grid makes
gathered cell (5,2) alive under P = 4, while the P = 1 run keeps the grid
all-dead; so P = 1 and P = 4 runs do not agree cell-for-cell even though
P <= S. -/
theorem C2_counterexample :
    gather_board 4 5 (dist_run 4 5 (init_state 4 5 (fun _ _ => 0)
        (fun _ => fun _ _ => 1) (fun _ => fun _ _ => 1)) 1).1 5 2 = 1
    ∧ gather_board 1 5 (dist_run 1 5 (init_state 1 5 (fun _ _ => 0)
        (fun _ => fun _ _ => 1) (fun _ => fun _ _ => 1)) 1).1 5 2 = 0 := by
  constructor
  · decide
  · decide

/-- C2 (amended): for every initial grid, every generation count G and every
contents of uninitialized memory in either run, the distributed update with
P = 4 workers gathers to the same global grid, cell-for-cell, as the run with
P = 1 worker, PROVIDED (in addition to the claimed P <= S) the last worker's
row count S - 3*rows_per_process(4,S) is nonnegative, which for P = 4
excludes exactly S = 5 (the counterexample). -/
theorem C2_decomposition_equiv_amended (S G : Nat) (init : Grid)
    (garbB1 garbN1 garbB4 garbN4 : Nat → Grid) (row : Nat) (j : Int)
    (hS : 4 ≤ S) (hlast4 : 0 ≤ local_rows 4 S 3)
    (h1 : 1 ≤ row) (h2 : row ≤ S) (hj1 : 1 ≤ j) (hj2 : j ≤ (S : Int)) :
    gather_board 4 S (dist_run 4 S (init_state 4 S init garbB4 garbN4) G).1 row j
      = gather_board 1 S (dist_run 1 S (init_state 1 S init garbB1 garbN1) G).1 row j := by
  have hS1 : 1 ≤ S := by omega
  have hlast1 : 0 ≤ local_rows 1 S 0 := by
    unfold local_rows
    norm_num
  have hlast4' : 0 ≤ local_rows 4 S (4 - 1) := hlast4
  rw [dist_run_gather (by norm_num) hS1 hlast4' init garbB4 garbN4 G row j h1 h2 hj1 hj2]
  rw [dist_run_gather (by norm_num) hS1 hlast1 init garbB1 garbN1 G row j h1 h2 hj1 hj2]

/-- Witness for C2_decomposition_equiv_amended: S = 4, G = 1, a one-glider
initial grid, zero garbage, gathered cell (1,1). -/
theorem C2_decomposition_equiv_amended_witness :
    ((4 : Nat) ≤ 4 ∧ (0 : Int) ≤ local_rows 4 4 3
      ∧ (1 : Nat) ≤ 1 ∧ (1 : Nat) ≤ 4 ∧ (1 : Int) ≤ 1 ∧ (1 : Int) ≤ (4 : Int))
    ∧ gather_board 4 4 (dist_run 4 4 (init_state 4 4
          (fun i j => if i = 2 ∧ j = 2 then 1 else 0)
          (fun _ => fun _ _ => 0) (fun _ => fun _ _ => 0)) 1).1 1 1
        = gather_board 1 4 (dist_run 1 4 (init_state 1 4
            (fun i j => if i = 2 ∧ j = 2 then 1 else 0)
            (fun _ => fun _ _ => 0) (fun _ => fun _ _ => 0)) 1).1 1 1 :=
  ⟨⟨by norm_num, by decide, by norm_num, by norm_num, by norm_num, by norm_num⟩,
   C2_decomposition_equiv_amended 4 1
     (fun i j => if i = 2 ∧ j = 2 then 1 else 0)
     (fun _ => fun _ _ => 0) (fun _ => fun _ _ => 0)
     (fun _ => fun _ _ => 0) (fun _ => fun _ _ => 0) 1 1
     (by norm_num) (by decide) (by norm_num) (by norm_num) (by norm_num) (by norm_num)⟩

end MPI

namespace MPI

/-- C5: counterexample.  At S = 5, P = 4 (a legal run: P <= S) the last
worker's row count is local_rows(3) = -1, so its "row localRows+1" is its row
0 -- and since worker 3 is not rank 0, the exchange RECEIVES into that row the
last interior row (row 2) of worker 2, a row random_board never initialized
(it would be global row 6 of a 5-row grid).  With that uninitialized memory
modelled as all-ones, row localRows+1 of worker P-1 holds 1 in column 2
immediately after the exchange instead of being all zero as the claim
requires, even though the state is exactly the program's own post-random_board
state and its border invariant InvB holds. -/
theorem C5_counterexample :
    InvB 4 5 (init_state 4 5 (fun _ _ => 0)
        (fun _ => fun _ _ => 1) (fun _ => fun _ _ => 1)).1
    ∧ (3 : Nat) = 4 - 1
    ∧ ((1 : Int) ≤ 2 ∧ (2 : Int) ≤ (5 : Int))
    ∧ halo_exchange 4 5
        (init_state 4 5 (fun _ _ => 0)
          (fun _ => fun _ _ => 1) (fun _ => fun _ _ => 1)).1
        3 (local_rows 4 5 3 + 1) 2 = 1 := by
  refine ⟨⟨?_, ?_, ?_⟩, rfl, ⟨by norm_num, by norm_num⟩, ?_⟩
  · intro w hw i j hi0 hi1 hj
    show random_board 4 5 (fun _ _ => 0) (fun _ _ => 1) w i j = 0
    unfold random_board clear_border
    rw [if_pos (by omega)]
  · intro j hj0 hj1
    show random_board 4 5 (fun _ _ => 0) (fun _ _ => 1) 0 0 j = 0
    unfold random_board clear_border
    rw [if_pos (by omega)]
  · intro j hj0 hj1
    show random_board 4 5 (fun _ _ => 0) (fun _ _ => 1) (4 - 1)
        (local_rows 4 5 (4 - 1) + 1) j = 0
    unfold random_board clear_border
    rw [if_pos (by omega)]
  · decide

/-- C5 (amended): PROVIDED the last worker's local row count
S - (P-1)*rows_per_process is nonnegative (the same condition forced on C2 and
C3; it fails e.g. at S = 5, P = 4, the counterexample above), immediately
after the halo exchange (and before the local step reads anything -- in
dist_step the update reads only the exchanged board), for every worker w and
every column 1..S: row 0 of w's board equals row local_rows(w-1) (the last
interior row) of worker w-1's board, or is zero when w = 0; and row
local_rows(w)+1 equals row 1 (the first interior row) of worker w+1's board,
or is zero when w = P-1.  The zero cases use the border invariant InvB, which
holds in every reachable state of the run (init_state_inv, dist_step_inv). -/
theorem C5_halo_exchange_rows (P S : Nat) (A : Nat → Grid)
    (hP : 1 ≤ P) (hS : 1 ≤ S) (hlast : 0 ≤ local_rows P S (P - 1))
    (hB : InvB P S A) (w : Nat) (hw : w < P) (j : Int)
    (hj1 : 1 ≤ j) (hj2 : j ≤ (S : Int)) :
    (w = 0 → halo_exchange P S A w 0 j = 0)
    ∧ (¬ w = 0 → halo_exchange P S A w 0 j = A (w - 1) (local_rows P S (w - 1)) j)
    ∧ (w = P - 1 → halo_exchange P S A w (local_rows P S w + 1) j = 0)
    ∧ (¬ w = P - 1 → halo_exchange P S A w (local_rows P S w + 1) j = A (w + 1) 1 j) := by
  obtain ⟨hBcol, hBtop, hBbot⟩ := hB
  have hlrw : 0 ≤ local_rows P S w := local_rows_nonneg hP hS hlast w hw
  refine ⟨?_, ?_, ?_, ?_⟩
  · intro hw0
    subst hw0
    unfold halo_exchange
    rw [if_neg (by omega), if_neg (by omega)]
    exact hBtop j (by omega) (by omega)
  · intro hne
    unfold halo_exchange
    rw [if_pos ⟨hne, rfl, hj1, hj2⟩]
  · intro hwl
    subst hwl
    unfold halo_exchange
    rw [if_neg (by omega), if_neg (by omega)]
    exact hBbot j (by omega) (by omega)
  · intro hne
    have hlr1 : 1 ≤ local_rows P S w := local_rows_mid_pos hP hS w hne
    unfold halo_exchange
    rw [if_neg (by omega), if_pos ⟨hne, rfl, hj1, hj2⟩]

/-- Witness for C5_halo_exchange_rows at P = 1, S = 1, the all-zero state. -/
theorem C5_halo_exchange_rows_witness :
    ((0 : Int) ≤ local_rows 1 1 (1 - 1))
    ∧ ((0 = 0 → halo_exchange 1 1 (fun _ _ _ => 0) 0 0 1 = 0)
      ∧ (¬ (0 : Nat) = 0 →
          halo_exchange 1 1 (fun _ _ _ => 0) 0 0 1
            = (fun _ _ _ => (0 : Int)) (0 - 1) (local_rows 1 1 (0 - 1)) 1)
      ∧ ((0 : Nat) = 1 - 1 →
          halo_exchange 1 1 (fun _ _ _ => 0) 0 (local_rows 1 1 0 + 1) 1 = 0)
      ∧ (¬ (0 : Nat) = 1 - 1 →
          halo_exchange 1 1 (fun _ _ _ => 0) 0 (local_rows 1 1 0 + 1) 1
            = (fun _ _ _ => (0 : Int)) (0 + 1) 1 1)) :=
  ⟨by decide,
   C5_halo_exchange_rows 1 1 (fun _ _ _ => 0) (by norm_num) (by norm_num) (by decide)
     ⟨fun _ _ _ _ _ _ _ => rfl, fun _ _ _ => rfl, fun _ _ _ => rfl⟩
     0 (by norm_num) 1 (by norm_num) (by decide)⟩

/-- C1: for every source board, destination board, dimensions and interior
cell (i,j), update_board writes into the destination at (i,j) exactly the
Game of Life rule applied to the 8-neighbor sum read from the source: a cell
with exactly 3 live neighbors is alive next generation regardless of its
current state; a live cell with 2 or 3 live neighbors is alive; a live cell
with at most 1 or at least 4 live neighbors is dead; a dead cell with 2 live
neighbors stays dead. -/
theorem C1_local_step_rule (b d : Grid) (rows cols i j : Int)
    (hi : 1 ≤ i ∧ i ≤ rows - 2) (hj : 1 ≤ j ∧ j ≤ cols - 2) :
    ((update_board (b, d) rows cols).2 i j = life_rule (b i j) (nbrs_sum b i j))
    ∧ (nbrs_sum b i j = 3 → (update_board (b, d) rows cols).2 i j = 1)
    ∧ (b i j = 1 → nbrs_sum b i j = 2 ∨ nbrs_sum b i j = 3 →
        (update_board (b, d) rows cols).2 i j = 1)
    ∧ (b i j = 1 → nbrs_sum b i j ≤ 1 ∨ 4 ≤ nbrs_sum b i j →
        (update_board (b, d) rows cols).2 i j = 0)
    ∧ (b i j = 0 → nbrs_sum b i j = 2 → (update_board (b, d) rows cols).2 i j = 0) := by
  have happ : (update_board (b, d) rows cols).2 i j
      = life_rule (b i j) (nbrs_sum b i j) := by
    rw [update_board_apply, if_pos ⟨hi, hj⟩]
  refine ⟨happ, ?_, ?_, ?_, ?_⟩
  · intro h3
    rw [happ]
    unfold life_rule
    rw [h3]
    by_cases hc : b i j = 1 <;> simp [hc]
  · intro hc hn
    rw [happ]
    unfold life_rule
    rw [hc]
    rcases hn with hn | hn <;> simp [hn]
  · intro hc hn
    rw [happ]
    unfold life_rule
    rw [hc]
    have h2 : ¬ nbrs_sum b i j = 2 := by omega
    have h3 : ¬ nbrs_sum b i j = 3 := by omega
    simp [h2, h3]
  · intro hc hn
    rw [happ]
    unfold life_rule
    rw [hc, hn]
    norm_num

/-- Witness for C1_local_step_rule: a 3x3 interior with an all-ones source. -/
theorem C1_local_step_rule_witness :
    ((1 : Int) ≤ 1 ∧ (1 : Int) ≤ 5 - 2) ∧ ((1 : Int) ≤ 1 ∧ (1 : Int) ≤ 5 - 2)
    ∧ ((update_board ((fun _ _ => 1), (fun _ _ => 0)) 5 5).2 1 1
        = life_rule ((fun (_ _ : Int) => (1 : Int)) 1 1)
            (nbrs_sum (fun _ _ => 1) 1 1)) :=
  ⟨⟨by norm_num, by norm_num⟩, ⟨by norm_num, by norm_num⟩,
   (C1_local_step_rule (fun _ _ => 1) (fun _ _ => 0) 5 5 1 1
     ⟨by norm_num, by norm_num⟩ ⟨by norm_num, by norm_num⟩).1⟩

/-- C8: update_board leaves every cell of the source board unchanged, reads no
cell of the destination (interior results are the same for any two
destination contents), and writes only interior destination cells: every
destination cell outside the interior, in particular the whole border/halo
ring (row 0, row rows-1, column 0, column cols-1), keeps its previous
value. -/
theorem C8_local_step_frame (b d dAlt : Grid) (rows cols : Int) :
    ((update_board (b, d) rows cols).1 = b)
    ∧ (∀ i j : Int, 1 ≤ i ∧ i ≤ rows - 2 → 1 ≤ j ∧ j ≤ cols - 2 →
        (update_board (b, d) rows cols).2 i j = (update_board (b, dAlt) rows cols).2 i j)
    ∧ (∀ i j : Int, ¬((1 ≤ i ∧ i ≤ rows - 2) ∧ (1 ≤ j ∧ j ≤ cols - 2)) →
        (update_board (b, d) rows cols).2 i j = d i j)
    ∧ (∀ i j : Int, i = 0 ∨ i = rows - 1 ∨ j = 0 ∨ j = cols - 1 →
        (update_board (b, d) rows cols).2 i j = d i j) := by
  refine ⟨update_board_fst b d rows cols, ?_, ?_, ?_⟩
  · intro i j hi hj
    rw [update_board_apply, update_board_apply, if_pos ⟨hi, hj⟩, if_pos ⟨hi, hj⟩]
  · intro i j h
    rw [update_board_apply, if_neg h]
  · intro i j h
    rw [update_board_apply, if_neg (by omega)]

/-- Witness for C8_local_step_frame on a concrete 4x4 board. -/
theorem C8_local_step_frame_witness :
    ((update_board ((fun _ _ => 1), (fun _ _ => 7)) 4 4).1 = (fun _ _ => 1))
    ∧ ((update_board ((fun _ _ => 1), (fun _ _ => 7)) 4 4).2 0 0 = 7) :=
  ⟨(C8_local_step_frame (fun _ _ => 1) (fun _ _ => 7) (fun _ _ => 0) 4 4).1,
   (C8_local_step_frame (fun _ _ => 1) (fun _ _ => 7) (fun _ _ => 0) 4 4).2.2.2 0 0
     (by norm_num)⟩

end MPI

namespace Serial

theorem read_neighbor_of_zero {m : Grid} {s : Int}
    (h : ∀ a b : Int, 0 ≤ a → a < s → 0 ≤ b → b < s → m a b = 0)
    (hs : 0 < s) (i j : Int) (hi1 : -1 ≤ i) (hi2 : i ≤ s) (hj1 : -1 ≤ j) (hj2 : j ≤ s) :
    read_neighbor m s i j = 0 := by
  unfold read_neighbor
  dsimp only
  split_ifs <;> apply h <;> omega

theorem serial_run_all_dead {s : Int} (hs : 0 < s) (garb : Nat → Grid) :
    ∀ (G : Nat) (i j : Int), 0 ≤ i → i < s → 0 ≤ j → j < s →
      serial_run (fun _ _ => 0) garb s G i j = 0 := by
  intro G
  induction G with
  | zero => intro i j _ _ _ _; rfl
  | succ k ih =>
      intro i j hi1 hi2 hj1 hj2
      show process_generation (serial_run (fun _ _ => 0) garb s k) (garb k) s i j = 0
      unfold process_generation
      rw [if_pos ⟨hi1, hi2, hj1, hj2⟩]
      have hnb : alive_neighbors (serial_run (fun _ _ => 0) garb s k) s i j = 0 := by
        unfold alive_neighbors
        rw [read_neighbor_of_zero ih hs (i-1) (j-1) (by omega) (by omega) (by omega) (by omega)]
        rw [read_neighbor_of_zero ih hs (i-1) j (by omega) (by omega) (by omega) (by omega)]
        rw [read_neighbor_of_zero ih hs (i-1) (j+1) (by omega) (by omega) (by omega) (by omega)]
        rw [read_neighbor_of_zero ih hs i (j-1) (by omega) (by omega) (by omega) (by omega)]
        rw [read_neighbor_of_zero ih hs i (j+1) (by omega) (by omega) (by omega) (by omega)]
        rw [read_neighbor_of_zero ih hs (i+1) (j-1) (by omega) (by omega) (by omega) (by omega)]
        rw [read_neighbor_of_zero ih hs (i+1) j (by omega) (by omega) (by omega) (by omega)]
        rw [read_neighbor_of_zero ih hs (i+1) (j+1) (by omega) (by omega) (by omega) (by omega)]
        norm_num
      rw [hnb, ih i j hi1 hi2 hj1 hj2]
      unfold life_rule
      norm_num

theorem cells_alive_of_no_alive {m : Grid} {s : Int}
    (h : ∀ a b : Int, 0 ≤ a → a < s → 0 ≤ b → b < s → ¬ m a b = 1) :
    cells_alive m s = 0 := by
  unfold cells_alive
  have inner : ∀ (i : Int), 0 ≤ i → i < s → ∀ (l : List Int) (acc : Int),
      (∀ j ∈ l, 0 ≤ j ∧ j ≤ s - 1) →
      l.foldl (fun acc2 j => if m i j = 1 then acc2 + 1 else acc2) acc = acc := by
    intro i hi1 hi2 l
    induction l with
    | nil => intro acc _; rfl
    | cons a t ih =>
        intro acc hl
        have ha := hl a (List.mem_cons_self a t)
        rw [List.foldl_cons]
        rw [if_neg (h i a hi1 hi2 (by omega) (by omega))]
        exact ih acc (fun j hj => hl j (List.mem_cons_of_mem a hj))
  have outer : ∀ (l : List Int) (acc : Int), (∀ i ∈ l, 0 ≤ i ∧ i ≤ s - 1) →
      l.foldl
        (fun acc i =>
          (intRange 0 (s-1)).foldl
            (fun acc2 j => if m i j = 1 then acc2 + 1 else acc2) acc)
        acc = acc := by
    intro l
    induction l with
    | nil => intro acc _; rfl
    | cons a t ih =>
        intro acc hl
        have ha := hl a (List.mem_cons_self a t)
        rw [List.foldl_cons]
        rw [inner a (by omega) (by omega) (intRange 0 (s-1)) acc
              (fun j hj => mem_intRange.1 hj)]
        exact ih acc (fun i hi => hl i (List.mem_cons_of_mem a hi))
  exact outer (intRange 0 (s-1)) 0 (fun i hi => mem_intRange.1 hi)

end Serial

/-- C6: starting from the all-dead s x s grid, the grid after every number of
generations of game.c's loop is still all-dead on every cell of the matrix
(whatever the malloc contents garb of the intermediate matrices), and
cells_alive of the result is 0. -/
theorem C6_empty_grid_stable (s : Int) (hs : 0 < s) (G : Nat) (garb : Nat → Grid) :
    (∀ i j : Int, 0 ≤ i → i < s → 0 ≤ j → j < s →
        Serial.serial_run (fun _ _ => 0) garb s G i j = 0)
    ∧ Serial.cells_alive (Serial.serial_run (fun _ _ => 0) garb s G) s = 0 := by
  refine ⟨Serial.serial_run_all_dead hs garb G, ?_⟩
  apply Serial.cells_alive_of_no_alive
  intro a b ha1 ha2 hb1 hb2
  rw [Serial.serial_run_all_dead hs garb G a b ha1 ha2 hb1 hb2]
  norm_num

/-- Witness for C6_empty_grid_stable at s = 2, G = 2, zero garbage. -/
theorem C6_empty_grid_stable_witness :
    ((0 : Int) < 2)
    ∧ ((∀ i j : Int, 0 ≤ i → i < 2 → 0 ≤ j → j < 2 →
          Serial.serial_run (fun _ _ => 0) (fun _ => fun _ _ => 0) 2 2 i j = 0)
      ∧ Serial.cells_alive
          (Serial.serial_run (fun _ _ => 0) (fun _ => fun _ _ => 0) 2 2) 2 = 0) :=
  ⟨by norm_num, C6_empty_grid_stable 2 (by norm_num) 2 (fun _ => fun _ _ => 0)⟩

/-- C7: evidence of the divergence between the claim and game.c.  The argument
check of game.c main only rejects size or generations equal to 0 (atoi of a
missing/non-numeric argument), not negative values: with argv = ("-1", "5") or
("5", "-2") the program runs to completion and exits 0 (the generation and
fill loops simply do not execute), contradicting the claimed failure exit for
all non-positive arguments.  Zero or missing arguments are rejected and valid
positive ones succeed, as claimed. -/
theorem C7_negative_args_not_rejected :
    Serial.main_exit 3 (-1) 5 = 0
    ∧ Serial.main_exit 3 5 (-2) = 0
    ∧ Serial.main_exit 3 0 5 = 1
    ∧ Serial.main_exit 3 5 0 = 1
    ∧ Serial.main_exit 2 7 7 = 1
    ∧ Serial.main_exit 3 5 5 = 0 := by
  refine ⟨?_, ?_, ?_, ?_, ?_, ?_⟩ <;> decide

/-- C9: the single-worker/shared-memory variant evaluates neighbors toroidally
(read_neighbor maps index -1 to s-1 and index s to 0, in each dimension), while
the distributed variant reads out-of-partition neighbors from the zero ring
maintained by clear_border, with no wraparound; concretely, on the all-alive
2x2 grid a corner cell dies under the toroidal step (8 wrapped live neighbors)
but survives under the zero-padded distributed step (3 live neighbors), so the
two variants implement different edge policies. -/
theorem C9_edge_policies :
    (∀ (m : Grid) (s i j : Int), 0 ≤ i → i < s → 0 ≤ j → j < s →
        Serial.read_neighbor m s (-1) j = m (s - 1) j
        ∧ Serial.read_neighbor m s s j = m 0 j
        ∧ Serial.read_neighbor m s i (-1) = m i (s - 1)
        ∧ Serial.read_neighbor m s i s = m i 0)
    ∧ (∀ (b : Grid) (rows cols i j : Int),
        (0 ≤ i ∧ i < rows ∧ (j = 0 ∨ j = cols - 1))
          ∨ (0 ≤ j ∧ j < cols ∧ (i = 0 ∨ i = rows - 1)) →
        MPI.clear_border b rows cols i j = 0)
    ∧ Serial.process_generation (fun _ _ => 1) (fun _ _ => 0) 2 0 0 = 0
    ∧ (MPI.update_board (MPI.clear_border (fun _ _ => 1) 4 4, fun _ _ => 0) 4 4).2 1 1
        = 1 := by
  refine ⟨?_, ?_, by decide, by decide⟩
  · intro m s i j hi1 hi2 hj1 hj2
    unfold Serial.read_neighbor
    dsimp only
    refine ⟨?_, ?_, ?_, ?_⟩
    · rw [if_pos (by norm_num : (-1 : Int) < 0),
          if_neg (by omega : ¬ j < 0), if_neg (by omega : ¬ j = s)]
    · rw [if_neg (by omega : ¬ s < 0), if_pos rfl,
          if_neg (by omega : ¬ j < 0), if_neg (by omega : ¬ j = s)]
    · rw [if_neg (by omega : ¬ i < 0), if_neg (by omega : ¬ i = s),
          if_pos (by norm_num : (-1 : Int) < 0)]
    · rw [if_neg (by omega : ¬ i < 0), if_neg (by omega : ¬ i = s),
          if_neg (by omega : ¬ s < 0), if_pos rfl]
  · intro b rows cols i j hring
    unfold MPI.clear_border
    rw [if_pos hring]

/-- Witness for C9_edge_policies: wrapping on a concrete 3x3 grid, a ring cell,
and the two divergent corner updates. -/
theorem C9_edge_policies_witness :
    ((0 : Int) ≤ 0 ∧ (0 : Int) < 3 ∧ (0 : Int) ≤ 1 ∧ (1 : Int) < 3)
    ∧ (Serial.read_neighbor (fun i j => 10 * i + j) 3 (-1) 1
        = (fun (i j : Int) => 10 * i + j) (3 - 1) 1)
    ∧ MPI.clear_border (fun _ _ => 5) 4 4 0 2 = 0 := by
  refine ⟨⟨by norm_num, by norm_num, by norm_num, by norm_num⟩, ?_, ?_⟩
  · exact ((C9_edge_policies.1 (fun i j => 10 * i + j) 3 0 1
      (by norm_num) (by norm_num) (by norm_num) (by norm_num)).1)
  · exact C9_edge_policies.2.1 (fun _ _ => 5) 4 4 0 2 (by norm_num)

namespace OMP

/-- The per-thread row range computed by process_generation of game_omp.c
(lines 326-347) when more than one thread runs: rows = s / threads (integer
division), start = rows * t_number, end = start + rows; thread 0 additionally
extends its end by dif = s - threads*rows when the global flag
alert_extra_work is still clear, s is odd, and dif > 0 (setting the flag for
the rest of the process).  The pair is (start, end), the half-open row range
the thread updates.  All quantities are nonnegative C ints, modelled as Nat. -/
def omp_range (s T t : Nat) (alert : Bool) : Nat × Nat :=
  let rows := s / T
  let start := rows * t
  let dif := s - T * rows
  if alert = false ∧ t = 0 ∧ ¬ s % 2 = 0 ∧ 0 < dif then (start, start + rows + dif)
  else (start, start + rows)

/-- C4: evidence that the claimed disjoint exact cover fails on the code.  At
s = 3, T = 2 (first generation, flag clear): thread 0 computes rows [0,2) and
thread 1 computes rows [1,2), so row 1 is written by both threads and row 2 by
neither; with the flag set (every later generation) the ranges are [0,1) and
[1,2) and row 2 is again covered by no thread.  The "extra" rows absorbed by
thread 0 are at the start of the matrix, not the leftover tail rows of the
integer division. -/
theorem C4_omp_ranges_overlap_and_gap :
    (omp_range 3 2 0 false = (0, 2) ∧ omp_range 3 2 1 false = (1, 2))
    ∧ ((omp_range 3 2 0 false).1 ≤ 1 ∧ 1 < (omp_range 3 2 0 false).2
        ∧ (omp_range 3 2 1 false).1 ≤ 1 ∧ 1 < (omp_range 3 2 1 false).2)
    ∧ (∀ t : Nat, t < 2 →
        ¬((omp_range 3 2 t false).1 ≤ 2 ∧ 2 < (omp_range 3 2 t false).2))
    ∧ (∀ t : Nat, t < 2 →
        ¬((omp_range 3 2 t true).1 ≤ 2 ∧ 2 < (omp_range 3 2 t true).2)) := by
  decide

end OMP

namespace MPI

/-- Message operations of the halo exchange: non-blocking receive/send posts
and the corresponding waits, each tagged with the peer rank. -/
inductive HOp where
  | irecv : Nat → HOp
  | isend : Nat → HOp
  | waitRecv : Nat → HOp
  | waitSend : Nat → HOp
  deriving DecidableEq

/-- The four conditional initiation calls of update_board,
MPI/game_mpi.c:305-328, in program order: Irecv from above (unless rank 0),
Irecv from below (unless last rank), Isend to above (unless rank 0), Isend to
below (unless last rank). -/
def init_ops (P w : Nat) : List HOp :=
  (if ¬ w = 0 then [HOp.irecv (w - 1)] else [])
    ++ (if ¬ w = P - 1 then [HOp.irecv (w + 1)] else [])
    ++ (if ¬ w = 0 then [HOp.isend (w - 1)] else [])
    ++ (if ¬ w = P - 1 then [HOp.isend (w + 1)] else [])

/-- The four conditional MPI_Wait calls of update_board,
MPI/game_mpi.c:330-353, in program order. -/
def wait_ops (P w : Nat) : List HOp :=
  (if ¬ w = 0 then [HOp.waitRecv (w - 1)] else [])
    ++ (if ¬ w = P - 1 then [HOp.waitRecv (w + 1)] else [])
    ++ (if ¬ w = 0 then [HOp.waitSend (w - 1)] else [])
    ++ (if ¬ w = P - 1 then [HOp.waitSend (w + 1)] else [])

/-- The complete operation sequence of one halo exchange on rank w:
MPI/game_mpi.c:305-353 issues all initiations and then all waits. -/
def exchange_ops (P w : Nat) : List HOp :=
  init_ops P w ++ wait_ops P w

def isInitOp : HOp → Bool
  | HOp.irecv _ => true
  | HOp.isend _ => true
  | HOp.waitRecv _ => false
  | HOp.waitSend _ => false

/-- In a configuration c (program counter per rank), rank v has already
initiated operation op when op occurs among the first c v operations of v's
exchange sequence. -/
def initiated (P : Nat) (c : Nat → Nat) (v : Nat) (op : HOp) : Prop :=
  ∃ k : Nat, k < c v ∧ (exchange_ops P v)[k]? = some op

/-- MPI progress semantics for a single operation of rank w: non-blocking
initiations are always enabled; a wait on a receive (resp. send) from/to peer
p completes once p has initiated the matching send (resp. receive). -/
def op_enabled (P : Nat) (c : Nat → Nat) (w : Nat) : HOp → Prop
  | HOp.irecv _ => True
  | HOp.isend _ => True
  | HOp.waitRecv p => initiated P c p (HOp.isend w)
  | HOp.waitSend p => initiated P c p (HOp.irecv w)

/-- Rank w can take a step in configuration c. -/
def enabled (P : Nat) (c : Nat → Nat) (w : Nat) : Prop :=
  ∃ op, (exchange_ops P w)[c w]? = some op ∧ op_enabled P c w op

theorem mem_of_getElem_opt {α : Type} {l : List α} {k : Nat} {a : α}
    (h : l[k]? = some a) : a ∈ l := by
  obtain ⟨hk, rfl⟩ := List.getElem?_eq_some_iff.1 h
  exact List.getElem_mem hk

theorem mem_ite_singleton {c : Prop} [Decidable c] {x op : HOp}
    (h : op ∈ if c then [x] else []) : op = x ∧ c := by
  by_cases hc : c
  · rw [if_pos hc] at h
    exact ⟨List.mem_singleton.1 h, hc⟩
  · rw [if_neg hc] at h
    exact absurd h (List.not_mem_nil op)

theorem init_ops_isInit {P w : Nat} : ∀ op ∈ init_ops P w, isInitOp op = true := by
  intro op hop
  unfold init_ops at hop
  rcases List.mem_append.1 hop with h | h
  · rcases List.mem_append.1 h with h' | h'
    · rcases List.mem_append.1 h' with h'' | h''
      · rw [(mem_ite_singleton h'').1]; rfl
      · rw [(mem_ite_singleton h'').1]; rfl
    · rw [(mem_ite_singleton h').1]; rfl
  · rw [(mem_ite_singleton h).1]; rfl

theorem wait_ops_not_isInit {P w : Nat} : ∀ op ∈ wait_ops P w, isInitOp op = false := by
  intro op hop
  unfold wait_ops at hop
  rcases List.mem_append.1 hop with h | h
  · rcases List.mem_append.1 h with h' | h'
    · rcases List.mem_append.1 h' with h'' | h''
      · rw [(mem_ite_singleton h'').1]; rfl
      · rw [(mem_ite_singleton h'').1]; rfl
    · rw [(mem_ite_singleton h').1]; rfl
  · rw [(mem_ite_singleton h).1]; rfl

theorem initiated_of_mem {P : Nat} {c : Nat → Nat} {v : Nat} {op : HOp}
    (hlen : (init_ops P v).length ≤ c v) (hmem : op ∈ init_ops P v) :
    initiated P c v op := by
  obtain ⟨k, hk, hget⟩ := List.mem_iff_getElem.1 hmem
  refine ⟨k, by omega, ?_⟩
  unfold exchange_ops
  rw [List.getElem?_append_left hk, List.getElem?_eq_getElem hk, hget]

theorem isend_mem_init_above {P w : Nat} (hw1 : 1 ≤ w) (hwP : w < P) :
    HOp.isend w ∈ init_ops P (w - 1) := by
  unfold init_ops
  apply List.mem_append_right
  rw [if_pos (show ¬ w - 1 = P - 1 by omega)]
  have e : w - 1 + 1 = w := by omega
  rw [e]
  exact List.mem_singleton.2 rfl

theorem irecv_mem_init_above {P w : Nat} (hw1 : 1 ≤ w) (hwP : w < P) :
    HOp.irecv w ∈ init_ops P (w - 1) := by
  unfold init_ops
  apply List.mem_append_left
  apply List.mem_append_left
  apply List.mem_append_right
  rw [if_pos (show ¬ w - 1 = P - 1 by omega)]
  have e : w - 1 + 1 = w := by omega
  rw [e]
  exact List.mem_singleton.2 rfl

theorem isend_mem_init_below {P w : Nat} :
    HOp.isend w ∈ init_ops P (w + 1) := by
  unfold init_ops
  apply List.mem_append_left
  apply List.mem_append_right
  rw [if_pos (show ¬ w + 1 = 0 by omega)]
  have e : w + 1 - 1 = w := by omega
  rw [e]
  exact List.mem_singleton.2 rfl

theorem irecv_mem_init_below {P w : Nat} :
    HOp.irecv w ∈ init_ops P (w + 1) := by
  unfold init_ops
  apply List.mem_append_left
  apply List.mem_append_left
  apply List.mem_append_left
  rw [if_pos (show ¬ w + 1 = 0 by omega)]
  have e : w + 1 - 1 = w := by omega
  rw [e]
  exact List.mem_singleton.2 rfl

theorem wait_enabled {P : Nat} {c : Nat → Nat}
    (hA : ∀ v : Nat, v < P → (init_ops P v).length ≤ c v)
    {w : Nat} (hw : w < P) :
    ∀ op ∈ wait_ops P w, op_enabled P c w op := by
  intro op hop
  unfold wait_ops at hop
  rcases List.mem_append.1 hop with h | h
  · rcases List.mem_append.1 h with h' | h'
    · rcases List.mem_append.1 h' with h'' | h''
      · obtain ⟨rfl, hg⟩ := mem_ite_singleton h''
        show initiated P c (w - 1) (HOp.isend w)
        exact initiated_of_mem (hA (w - 1) (by omega))
          (isend_mem_init_above (by omega) hw)
      · obtain ⟨rfl, hg⟩ := mem_ite_singleton h''
        show initiated P c (w + 1) (HOp.isend w)
        exact initiated_of_mem (hA (w + 1) (by omega)) isend_mem_init_below
    · obtain ⟨rfl, hg⟩ := mem_ite_singleton h'
      show initiated P c (w - 1) (HOp.irecv w)
      exact initiated_of_mem (hA (w - 1) (by omega))
        (irecv_mem_init_above (by omega) hw)
  · obtain ⟨rfl, hg⟩ := mem_ite_singleton h
    show initiated P c (w + 1) (HOp.irecv w)
    exact initiated_of_mem (hA (w + 1) (by omega)) irecv_mem_init_below

/-- C10: in every configuration of the P-rank halo exchange, (i) if some rank
still has operations left, some rank has an enabled next operation -- so no
reachable execution of the exchange deadlocks on a circular blocking
dependency (initiations are always enabled, and once every rank has posted its
initiations every wait's matching counterpart has been initiated); and (ii) in
every rank's operation sequence all non-blocking initiations precede all
waits. -/
theorem C10_exchange_no_deadlock (P : Nat) (c : Nat → Nat)
    (hpend : ∃ w, w < P ∧ c w < (exchange_ops P w).length) :
    (∃ w, w < P ∧ enabled P c w)
    ∧ (∀ (w k1 k2 : Nat) (op1 op2 : HOp),
        (exchange_ops P w)[k1]? = some op1 → (exchange_ops P w)[k2]? = some op2 →
        isInitOp op1 = true → isInitOp op2 = false → k1 < k2) := by
  constructor
  · by_cases hA : ∀ v : Nat, v < P → (init_ops P v).length ≤ c v
    · obtain ⟨w0, hw0, hc0⟩ := hpend
      have hlen : (exchange_ops P w0).length
          = (init_ops P w0).length + (wait_ops P w0).length := by
        unfold exchange_ops
        exact List.length_append _ _
      have hinitle := hA w0 hw0
      have hk : c w0 - (init_ops P w0).length < (wait_ops P w0).length := by omega
      obtain ⟨op, hget⟩ : ∃ op, (wait_ops P w0)[c w0 - (init_ops P w0).length]? = some op :=
        ⟨_, List.getElem?_eq_getElem hk⟩
      refine ⟨w0, hw0, op, ?_, ?_⟩
      · show (exchange_ops P w0)[c w0]? = _
        unfold exchange_ops
        rw [List.getElem?_append_right hinitle]
        exact hget
      · exact wait_enabled hA hw0 op (mem_of_getElem_opt hget)
    · push_neg at hA
      obtain ⟨v, hv, hcv⟩ := hA
      obtain ⟨op, hget⟩ : ∃ op, (init_ops P v)[c v]? = some op :=
        ⟨_, List.getElem?_eq_getElem hcv⟩
      have hmem : op ∈ init_ops P v := mem_of_getElem_opt hget
      have hinit := init_ops_isInit _ hmem
      refine ⟨v, hv, op, ?_, ?_⟩
      · show (exchange_ops P v)[c v]? = _
        unfold exchange_ops
        rw [List.getElem?_append_left hcv]
        exact hget
      · cases op with
        | irecv p => trivial
        | isend p => trivial
        | waitRecv p => simp [isInitOp] at hinit
        | waitSend p => simp [isInitOp] at hinit
  · intro w k1 k2 op1 op2 h1 h2 hinit1 hinit2
    by_cases hk1 : k1 < (init_ops P w).length
    · by_cases hk2 : k2 < (init_ops P w).length
      · exfalso
        unfold exchange_ops at h2
        rw [List.getElem?_append_left hk2] at h2
        have := init_ops_isInit op2 (mem_of_getElem_opt h2)
        rw [this] at hinit2
        simp at hinit2
      · omega
    · exfalso
      unfold exchange_ops at h1
      rw [List.getElem?_append_right (by omega)] at h1
      have := wait_ops_not_isInit op1 (mem_of_getElem_opt h1)
      rw [this] at hinit1
      simp at hinit1

/-- Witness for C10_exchange_no_deadlock: two ranks, both at the start of the
exchange. -/
theorem C10_exchange_no_deadlock_witness :
    (∃ w, w < 2 ∧ (fun _ : Nat => 0) w < (exchange_ops 2 w).length)
    ∧ (∃ w, w < 2 ∧ enabled 2 (fun _ => 0) w) :=
  ⟨⟨0, by norm_num, by decide⟩,
   (C10_exchange_no_deadlock 2 (fun _ => 0) ⟨0, by norm_num, by decide⟩).1⟩

end MPI
